import Mathlib

/-!
Verification of the work-efficient stream-compaction core
(`src/stream_compaction/efficient.cu`).

Modelling conventions.

* Device buffers of `int` are modelled as functions `ℕ → ℤ`.  Every guarded
  access of the kernels stays inside `[0, n)` (proved below), so the extra
  positions of the model are never consulted by the results we state.
* A kernel level that runs `d` threads in parallel is modelled as a sequential
  fold over the thread ids `t = 0, 1, …, d-1`.  Within one level of the
  up-sweep or the down-sweep all written cells are pairwise distinct and no
  thread reads a cell another thread of the same level writes (the written
  indices `a`, and in the down-sweep also `b = a - offset/2`, are congruent to
  `n-1` modulo `offset`, while distinct threads use distinct residues
  `t*offset`), so the sequential fold computes the unique data-race-free
  parallel outcome.  The `__syncthreads` barriers separating levels become the
  sequential composition of the level functions.
* C `int` arithmetic on indices is modelled on `ℤ`; `offset` is a positive
  power of two throughout, so the C integer division `offset / 2` agrees with
  natural-number division.
* Element values are modelled on `ℤ` (the specification's "sequence of n
  integers, arbitrary values").
-/

namespace StreamCompaction

/-- Pointwise update of a modelled buffer: `upd v i x` is `v` with cell `i`
set to `x`. -/
def upd (v : ℕ → ℤ) (i : ℕ) (x : ℤ) : ℕ → ℤ :=
  fun j => if j = i then x else v j

/-- The right index `a = n - 1 - index * offset` computed by both sweeps of
`kernelEfficientScan` (and of `kernelEfficientCompact`). -/
def idxA (n offset t : ℕ) : ℤ :=
  (n : ℤ) - 1 - (t : ℤ) * (offset : ℤ)

/-- The left index `b = a - offset / 2` computed by both sweeps.  `offset` is
a nonnegative power of two, so C integer division by 2 is natural division. -/
def idxB (n offset t : ℕ) : ℤ :=
  idxA n offset t - ((offset / 2 : ℕ) : ℤ)

/-- One up-sweep thread: `if (a >= 0 && b >= 0) g_odata[a] += g_odata[b]`. -/
def upStep (n offset t : ℕ) (v : ℕ → ℤ) : ℕ → ℤ :=
  if 0 ≤ idxA n offset t ∧ 0 ≤ idxB n offset t then
    upd v (idxA n offset t).toNat
      (v (idxA n offset t).toNat + v (idxB n offset t).toNat)
  else v

/-- One down-sweep thread:
`tmp = g_odata[b]; g_odata[b] = g_odata[a]; g_odata[a] += tmp`. -/
def downStep (n offset t : ℕ) (v : ℕ → ℤ) : ℕ → ℤ :=
  if 0 ≤ idxA n offset t ∧ 0 ≤ idxB n offset t then
    upd (upd v (idxB n offset t).toNat (v (idxA n offset t).toNat))
      (idxA n offset t).toNat
      (v (idxA n offset t).toNat + v (idxB n offset t).toNat)
  else v

/-- One barrier-delimited up-sweep level: threads `index < d` in parallel
(modelled sequentially; the writes of one level are pairwise disjoint). -/
def upLevel (n offset d : ℕ) (v : ℕ → ℤ) : ℕ → ℤ :=
  (List.range d).foldl (fun w t => upStep n offset t w) v

/-- One barrier-delimited down-sweep level. -/
def downLevel (n offset d : ℕ) (v : ℕ → ℤ) : ℕ → ℤ :=
  (List.range d).foldl (fun w t => downStep n offset t w) v

/-- The up-sweep loop `for (d = N/2; d >= 1; d >>= 1) { level; offset *= 2 }`
with `l` iterations left and current `offset`; the current thread bound is
`2^(l-1)`. -/
def upSweepAux (n : ℕ) : ℕ → ℕ → (ℕ → ℤ) → (ℕ → ℤ)
  | 0, _, v => v
  | l + 1, offset, v => upSweepAux n l (2 * offset) (upLevel n offset (2 ^ l) v)

/-- The whole up-sweep of `kernelEfficientScan` for `N = 2^k`: `offset` starts
at 2, `d` starts at `N/2 = 2^(k-1)`. -/
def upSweep (n k : ℕ) (v : ℕ → ℤ) : ℕ → ℤ :=
  upSweepAux n k 2 v

/-- `if (index == 0 && n > 0) g_odata[n - 1] = 0;` between the sweeps. -/
def clearLast (n : ℕ) (v : ℕ → ℤ) : ℕ → ℤ :=
  if 0 < n then upd v (n - 1) 0 else v

/-- The down-sweep loop `for (d = 1; d <= N/2; d *= 2) { level; offset /= 2 }`
with `l` iterations left, current thread bound `d` and current `offset`. -/
def downSweepAux (n : ℕ) : ℕ → ℕ → ℕ → (ℕ → ℤ) → (ℕ → ℤ)
  | 0, _, _, v => v
  | l + 1, d, offset, v =>
      downSweepAux n l (2 * d) (offset / 2) (downLevel n offset d v)

/-- The whole down-sweep for `N = 2^k`: after the up-sweep `offset` is
`2^(k+1)`; `offset /= 2` precedes the loop, so the first level uses
`offset = 2^k` and `d = 1`. -/
def downSweep (n k : ℕ) (v : ℕ → ℤ) : ℕ → ℤ :=
  downSweepAux n k 1 (2 ^ k) v

/-- The kernel `kernelEfficientScan(g_odata, g_idata, n, N)` with `N = 2^k`,
as the function it leaves in `g_odata`: the initial per-thread copy
`g_odata[index] = g_idata[index]` makes the working buffer equal to the input
on `[0, n)`, and both sweeps only access cells below `n`. -/
def kernelEfficientScan (n k : ℕ) (idata : ℕ → ℤ) : ℕ → ℤ :=
  downSweep n k (clearLast n (upSweep n k idata))

/-- Modelled from the spec: `ilog2ceil` is declared in `common.h`, which is
not part of the sources; the spec defines the padded working size as the
smallest power of two that is at least `n`, i.e. `N = 2^⌈log2 n⌉`. -/
def ilog2ceil (n : ℕ) : ℕ :=
  Nat.clog 2 n

/-- The host function `scan(n, odata, idata)`: runs `kernelEfficientScan` with
`N = 2^ilog2ceil(n)` and copies the first `n` cells back. -/
def scan (n : ℕ) (idata : ℕ → ℤ) : List ℤ :=
  (List.range n).map (kernelEfficientScan n (ilog2ceil n) idata)

/-- Modelled from the spec: `Common::kernMapToBoolean` lives in `common.cu`,
which is not part of the sources; the spec says `mask[i] = 1` if
`input[i] ≠ 0` else `0`.  The kernel writes cells `[0, n)`; the model is only
consulted there. -/
def kernMapToBoolean (n : ℕ) (idata : ℕ → ℤ) : ℕ → ℤ :=
  fun j => if idata j ≠ 0 then 1 else 0

/-- Modelled from the spec: `Common::kernScatter` lives in `common.cu`, which
is not part of the sources; the spec says: for each `i` with `mask[i] = 1`,
write `input[i]` to `output[scannedMask[i]]`.  The parallel threads write
pairwise distinct cells (proved below), so a sequential fold over the thread
ids is the data-race-free parallel outcome. -/
def kernScatter (n : ℕ) (odata idata bools indices : ℕ → ℤ) : ℕ → ℤ :=
  (List.range n).foldl
    (fun w i => if bools i = 1 then upd w (indices i).toNat (idata i) else w)
    odata

/-- The fused kernel `kernelEfficientCompact(g_odata, g_idata, g_sdata,
g_bdata, n, N)` with `N = 2^k`: builds the binary mask in `g_bdata`, runs the
work-efficient scan of the mask into `g_sdata`, then scatters.  Returns the
final `(g_odata, g_sdata, g_bdata)`. -/
def kernelEfficientCompact (n k : ℕ) (odata idata : ℕ → ℤ) :
    (ℕ → ℤ) × (ℕ → ℤ) × (ℕ → ℤ) :=
  let bdata : ℕ → ℤ := fun j => if idata j = 0 then 0 else 1
  let sdata := downSweep n k (clearLast n (upSweep n k bdata))
  let odata2 := (List.range n).foldl
    (fun w i => if bdata i = 1 then upd w (sdata i).toNat (idata i) else w)
    odata
  (odata2, sdata, bdata)

/-- The final `cudaMemcpy(odata, g_odata, sizeof(int) * count, ...)`: the
first `len` cells of the device buffer `src` overwrite the first `len`
entries of the host list `dst`; the rest of `dst` is untouched. -/
def copyBack (dst : List ℤ) (src : ℕ → ℤ) (len : ℕ) : List ℤ :=
  (List.range len).map src ++ dst.drop len

/-- The count `c1 + c2 = g_bdata[n-1] + g_sdata[n-1]` computed by the host
`compact` after running `kernMapToBoolean` (into `g_bdata`) and
`kernelEfficientScan` of the mask (into `g_sdata`). -/
def compactCount (n : ℕ) (idata : ℕ → ℤ) : ℤ :=
  kernMapToBoolean n idata (n - 1) +
    kernelEfficientScan n (ilog2ceil n) (kernMapToBoolean n idata) (n - 1)

/-- The device output buffer `g_odata` after the host `compact` has run its
three kernels `kernMapToBoolean` → `kernelEfficientScan` → `kernScatter`;
`dOdata` is the arbitrary initial content of `g_odata` (`cudaMalloc` does not
clear it). -/
def compactDev (n : ℕ) (idata dOdata : ℕ → ℤ) : ℕ → ℤ :=
  kernScatter n dOdata idata (kernMapToBoolean n idata)
    (kernelEfficientScan n (ilog2ceil n) (kernMapToBoolean n idata))

/-- The host function `compact(n, odata, idata)`.  `odata` is the caller's
buffer.  Returns the updated caller buffer (the first `count` device cells
copied back) and the returned `count`. -/
def compact (n : ℕ) (odata : List ℤ) (idata dOdata : ℕ → ℤ) : List ℤ × ℤ :=
  (copyBack odata (compactDev n idata dOdata) (compactCount n idata).toNat,
   compactCount n idata)

/-- Mathematical exclusive prefix sum: `sumTo v i = v 0 + ⋯ + v (i-1)`. -/
def sumTo (v : ℕ → ℤ) : ℕ → ℤ
  | 0 => 0
  | i + 1 => sumTo v i + v i

/-- The subsequence of the first `n` values of `f` that are non-zero, in
their original order. -/
def nonzeroSeq (f : ℕ → ℤ) : ℕ → List ℤ
  | 0 => []
  | q + 1 => nonzeroSeq f q ++ (if f q = 0 then [] else [f q])

/-- Half of the live range, rounded up: the number of cells of a length-`n`
buffer whose index is congruent to `n-1` modulo 2. -/
def half (n : ℕ) : ℕ :=
  (n + 1) / 2

/-- The embedding of the sub-buffer of cells congruent to `n-1` modulo 2:
`rho n j` is the `j`-th such cell, counted from the left. -/
def rho (n j : ℕ) : ℕ :=
  2 * j + (n - 1) % 2

/-- Extraction of the sub-buffer of cells congruent to `n-1` modulo 2
(length `half n`); cells beyond it are fixed to 0. -/
def subArr (n : ℕ) (v : ℕ → ℤ) : ℕ → ℤ :=
  fun j => if j < half n then v (rho n j) else 0

/-- The contents of the sub-buffer after the first up-sweep level (offset 2):
each cell holds the sum of its pair, except that for odd `n` the leftmost
cell `0` is unpaired and keeps its value. -/
def pairSums (n : ℕ) (v : ℕ → ℤ) : ℕ → ℤ :=
  fun j =>
    if j < half n then
      if rho n j = 0 then v 0 else v (rho n j) + v (rho n j - 1)
    else 0

end StreamCompaction
namespace StreamCompaction

/-! ### Basic tools -/

theorem upd_apply (v : ℕ → ℤ) (i : ℕ) (x : ℤ) (j : ℕ) :
    upd v i x j = if j = i then x else v j := rfl

theorem sumTo_succ (v : ℕ → ℤ) (i : ℕ) : sumTo v (i + 1) = sumTo v i + v i := rfl

/-- Commuting square between two fold loops through a buffer transformation. -/
theorem foldl_corr {α β : Type} (F : α → β) (f : α → ℕ → α) (g : β → ℕ → β)
    (h : ∀ a t, F (f a t) = g (F a) t) :
    ∀ (l : List ℕ) (a : α), F (l.foldl f a) = l.foldl g (F a) := by
  intro l
  induction l with
  | nil => intro a; rfl
  | cons t l ih => intro a; rw [List.foldl_cons, List.foldl_cons, ih, h]

/-- A fold whose every step leaves cell `p` unchanged leaves cell `p` unchanged. -/
theorem foldl_point (f : (ℕ → ℤ) → ℕ → (ℕ → ℤ)) (p : ℕ)
    (h : ∀ w t, f w t p = w p) :
    ∀ (l : List ℕ) (v : ℕ → ℤ), (l.foldl f v) p = v p := by
  intro l
  induction l with
  | nil => intro v; rfl
  | cons t l ih => intro v; rw [List.foldl_cons, ih, h]

theorem upLevel_succ (n offset d : ℕ) (v : ℕ → ℤ) :
    upLevel n offset (d + 1) v = upStep n offset d (upLevel n offset d v) := by
  unfold upLevel
  rw [List.range_succ, List.foldl_append, List.foldl_cons, List.foldl_nil]

theorem downLevel_succ (n offset d : ℕ) (v : ℕ → ℤ) :
    downLevel n offset (d + 1) v = downStep n offset d (downLevel n offset d v) := by
  unfold downLevel
  rw [List.range_succ, List.foldl_append, List.foldl_cons, List.foldl_nil]

/-! ### The sub-buffer of cells congruent to `n-1` modulo 2 -/

theorem subArr_apply_lt (n : ℕ) (v : ℕ → ℤ) (j : ℕ) (hj : j < half n) :
    subArr n v j = v (rho n j) := by
  unfold subArr; rw [if_pos hj]

theorem subArr_upd (n i : ℕ) (x : ℤ) (v : ℕ → ℤ) (hi : i < half n) :
    subArr n (upd v (rho n i) x) = upd (subArr n v) i x := by
  funext j
  simp only [subArr, upd_apply]
  by_cases hj : j < half n
  · rw [if_pos hj]
    by_cases hji : j = i
    · subst hji; rw [if_pos rfl, if_pos rfl]
    · have hne : rho n j ≠ rho n i := by unfold rho; omega
      rw [if_neg hne, if_neg hji, if_pos hj]
  · have hji : j ≠ i := by omega
    rw [if_neg hj, if_neg hji, if_neg hj]

/-! ### Index correspondence between the full buffer and its sub-buffer -/

theorem idxA_corr (n o t : ℕ) (hn : 1 ≤ n) :
    idxA n (4 * o) t = 2 * idxA (half n) (2 * o) t + ((n - 1) % 2 : ℕ) := by
  unfold idxA
  rw [show ((4 * o : ℕ) : ℤ) = 2 * ((2 * o : ℕ) : ℤ) by push_cast; ring]
  rw [show (t : ℤ) * (2 * ((2 * o : ℕ) : ℤ)) = 2 * ((t : ℤ) * ((2 * o : ℕ) : ℤ)) by
    ring]
  generalize (t : ℤ) * ((2 * o : ℕ) : ℤ) = u
  unfold half
  omega

theorem idxB_corr (n o t : ℕ) (hn : 1 ≤ n) :
    idxB n (4 * o) t = 2 * idxB (half n) (2 * o) t + ((n - 1) % 2 : ℕ) := by
  unfold idxB
  rw [idxA_corr n o t hn]
  generalize idxA (half n) (2 * o) t = u
  omega

theorem idxA_le (n o t : ℕ) : idxA n o t ≤ (n : ℤ) - 1 := by
  unfold idxA
  have h0 : (0 : ℤ) ≤ (t : ℤ) * (o : ℕ) := by positivity
  omega

theorem idxB_le (n o t : ℕ) : idxB n o t ≤ idxA n o t := by
  unfold idxB
  omega

/-! ### Step correspondence: one thread of the full buffer acts on the
sub-buffer exactly like the corresponding thread of the half-size problem -/

theorem upStep_corr (n o t : ℕ) (hn : 1 ≤ n) (v : ℕ → ℤ) :
    subArr n (upStep n (4 * o) t v) = upStep (half n) (2 * o) t (subArr n v) := by
  have hA := idxA_corr n o t hn
  have hB := idxB_corr n o t hn
  have hAle := idxA_le (half n) (2 * o) t
  have hBle := idxB_le (half n) (2 * o) t
  have hhalf : 1 ≤ half n := by unfold half; omega
  by_cases hg : 0 ≤ idxA (half n) (2 * o) t ∧ 0 ≤ idxB (half n) (2 * o) t
  · have hgout : 0 ≤ idxA n (4 * o) t ∧ 0 ≤ idxB n (4 * o) t := by
      constructor <;> omega
    have htA : (idxA n (4 * o) t).toNat = rho n (idxA (half n) (2 * o) t).toNat := by
      unfold rho; omega
    have htB : (idxB n (4 * o) t).toNat = rho n (idxB (half n) (2 * o) t).toNat := by
      unfold rho; omega
    have hAm : (idxA (half n) (2 * o) t).toNat < half n := by omega
    have hBm : (idxB (half n) (2 * o) t).toNat < half n := by omega
    unfold upStep
    rw [if_pos hgout, if_pos hg, htA, htB]
    rw [subArr_upd n _ _ v hAm]
    rw [subArr_apply_lt n v _ hAm, subArr_apply_lt n v _ hBm]
  · have hgout : ¬(0 ≤ idxA n (4 * o) t ∧ 0 ≤ idxB n (4 * o) t) := by omega
    unfold upStep
    rw [if_neg hgout, if_neg hg]

theorem downStep_corr (n o t : ℕ) (hn : 1 ≤ n) (v : ℕ → ℤ) :
    subArr n (downStep n (4 * o) t v) = downStep (half n) (2 * o) t (subArr n v) := by
  have hA := idxA_corr n o t hn
  have hB := idxB_corr n o t hn
  have hAle := idxA_le (half n) (2 * o) t
  have hBle := idxB_le (half n) (2 * o) t
  have hhalf : 1 ≤ half n := by unfold half; omega
  by_cases hg : 0 ≤ idxA (half n) (2 * o) t ∧ 0 ≤ idxB (half n) (2 * o) t
  · have hgout : 0 ≤ idxA n (4 * o) t ∧ 0 ≤ idxB n (4 * o) t := by
      constructor <;> omega
    have htA : (idxA n (4 * o) t).toNat = rho n (idxA (half n) (2 * o) t).toNat := by
      unfold rho; omega
    have htB : (idxB n (4 * o) t).toNat = rho n (idxB (half n) (2 * o) t).toNat := by
      unfold rho; omega
    have hAm : (idxA (half n) (2 * o) t).toNat < half n := by omega
    have hBm : (idxB (half n) (2 * o) t).toNat < half n := by omega
    unfold downStep
    rw [if_pos hgout, if_pos hg, htA, htB]
    rw [subArr_upd n _ _ _ hAm, subArr_upd n _ _ v hBm]
    rw [subArr_apply_lt n v _ hAm, subArr_apply_lt n v _ hBm]
  · have hgout : ¬(0 ≤ idxA n (4 * o) t ∧ 0 ≤ idxB n (4 * o) t) := by omega
    unfold downStep
    rw [if_neg hgout, if_neg hg]

end StreamCompaction
namespace StreamCompaction

/-! ### Level and sweep correspondence -/

theorem upLevel_corr (n o d : ℕ) (hn : 1 ≤ n) (v : ℕ → ℤ) :
    subArr n (upLevel n (4 * o) d v) = upLevel (half n) (2 * o) d (subArr n v) :=
  foldl_corr (subArr n) (fun w t => upStep n (4 * o) t w)
    (fun w t => upStep (half n) (2 * o) t w)
    (fun a t => upStep_corr n o t hn a) (List.range d) v

theorem downLevel_corr (n o d : ℕ) (hn : 1 ≤ n) (v : ℕ → ℤ) :
    subArr n (downLevel n (4 * o) d v) = downLevel (half n) (2 * o) d (subArr n v) :=
  foldl_corr (subArr n) (fun w t => downStep n (4 * o) t w)
    (fun w t => downStep (half n) (2 * o) t w)
    (fun a t => downStep_corr n o t hn a) (List.range d) v

theorem upSweepAux_corr (n : ℕ) (hn : 1 ≤ n) :
    ∀ (l s : ℕ) (v : ℕ → ℤ),
      subArr n (upSweepAux n l (2 ^ (s + 2)) v) =
        upSweepAux (half n) l (2 ^ (s + 1)) (subArr n v) := by
  intro l
  induction l with
  | zero => intro s v; rfl
  | succ l ih =>
    intro s v
    show subArr n (upSweepAux n l (2 * 2 ^ (s + 2)) (upLevel n (2 ^ (s + 2)) (2 ^ l) v)) =
      upSweepAux (half n) l (2 * 2 ^ (s + 1))
        (upLevel (half n) (2 ^ (s + 1)) (2 ^ l) (subArr n v))
    rw [show 2 * 2 ^ (s + 2) = 2 ^ (s + 3) by ring]
    rw [ih (s + 1)]
    rw [show (2 : ℕ) ^ (s + 2) = 4 * 2 ^ s by ring] at *
    rw [show (2 : ℕ) ^ (s + 1) = 2 * 2 ^ s by ring]
    rw [upLevel_corr n (2 ^ s) (2 ^ l) hn v]
    rw [show 2 * (2 * 2 ^ s) = 4 * 2 ^ s by ring]

theorem downSweepAux_corr (n : ℕ) (hn : 1 ≤ n) :
    ∀ (l s d : ℕ) (v : ℕ → ℤ), l ≤ s →
      subArr n (downSweepAux n l d (2 ^ (s + 1)) v) =
        downSweepAux (half n) l d (2 ^ s) (subArr n v) := by
  intro l
  induction l with
  | zero => intro s d v _; rfl
  | succ l ih =>
    intro s d v hls
    obtain ⟨s', rfl⟩ : ∃ s', s = s' + 1 := ⟨s - 1, by omega⟩
    show subArr n (downSweepAux n l (2 * d) (2 ^ (s' + 2) / 2)
        (downLevel n (2 ^ (s' + 2)) d v)) =
      downSweepAux (half n) l (2 * d) (2 ^ (s' + 1) / 2)
        (downLevel (half n) (2 ^ (s' + 1)) d (subArr n v))
    rw [show (2 : ℕ) ^ (s' + 2) / 2 = 2 ^ (s' + 1) by rw [pow_succ]; exact Nat.mul_div_cancel _ (by norm_num)]
    rw [show (2 : ℕ) ^ (s' + 1) / 2 = 2 ^ s' by rw [pow_succ]; exact Nat.mul_div_cancel _ (by norm_num)]
    rw [ih s' (2 * d) _ (by omega)]
    rw [show (2 : ℕ) ^ (s' + 2) = 4 * 2 ^ s' by ring]
    rw [show (2 : ℕ) ^ (s' + 1) = 2 * 2 ^ s' by ring]
    rw [downLevel_corr n (2 ^ s') d hn v]

theorem clearLast_corr (n : ℕ) (hn : 1 ≤ n) (v : ℕ → ℤ) :
    subArr n (clearLast n v) = clearLast (half n) (subArr n v) := by
  have hhalf : 1 ≤ half n := by unfold half; omega
  have hrho : rho n (half n - 1) = n - 1 := by unfold rho half; omega
  unfold clearLast
  rw [if_pos (by omega : 0 < n), if_pos (by omega : 0 < half n), ← hrho]
  exact subArr_upd n (half n - 1) 0 v (by omega)

/-- Peeling the last level off the down-sweep loop. -/
theorem downSweepAux_peel (n : ℕ) :
    ∀ (l d o : ℕ) (v : ℕ → ℤ),
      downSweepAux n (l + 1) d o v =
        downLevel n (o / 2 ^ l) (d * 2 ^ l) (downSweepAux n l d o v) := by
  intro l
  induction l with
  | zero =>
    intro d o v
    show downSweepAux n 0 (2 * d) (o / 2) (downLevel n o d v) =
      downLevel n (o / 2 ^ 0) (d * 2 ^ 0) v
    simp [downSweepAux]
  | succ l ih =>
    intro d o v
    show downSweepAux n (l + 1) (2 * d) (o / 2) (downLevel n o d v) =
      downLevel n (o / 2 ^ (l + 1)) (d * 2 ^ (l + 1)) (downSweepAux n (l + 1) d o v)
    rw [ih (2 * d) (o / 2) (downLevel n o d v)]
    rw [show o / 2 / 2 ^ l = o / 2 ^ (l + 1) by
      rw [Nat.div_div_eq_div_mul, pow_succ, mul_comm (2 ^ l) 2, mul_comm 2 (2 ^ l)]]
    rw [show 2 * d * 2 ^ l = d * 2 ^ (l + 1) by ring]
    rfl

/-! ### Frame: cells of the wrong parity are untouched between the first
up-sweep level and the last down-sweep level -/

theorem upStep_frame (n o t p : ℕ) (ho : o % 2 = 0) (hp : p % 2 ≠ (n - 1) % 2)
    (v : ℕ → ℤ) : upStep n o t v p = v p := by
  unfold upStep
  split_ifs with hg
  · rw [upd_apply, if_neg]
    obtain ⟨o', rfl⟩ : ∃ o', o = 2 * o' := ⟨o / 2, by omega⟩
    have hA : idxA n (2 * o') t = (n : ℤ) - 1 - 2 * ((t : ℤ) * (o' : ℕ)) := by
      unfold idxA; push_cast; ring
    have h0 : (0 : ℤ) ≤ (t : ℤ) * (o' : ℕ) := by positivity
    obtain ⟨hgA, _⟩ := hg
    omega
  · rfl

theorem downStep_frame (n o t p : ℕ) (ho : o % 4 = 0) (hp : p % 2 ≠ (n - 1) % 2)
    (v : ℕ → ℤ) : downStep n o t v p = v p := by
  unfold downStep
  split_ifs with hg
  · obtain ⟨o', rfl⟩ : ∃ o', o = 4 * o' := ⟨o / 4, by omega⟩
    have hA : idxA n (4 * o') t = (n : ℤ) - 1 - 4 * ((t : ℤ) * (o' : ℕ)) := by
      unfold idxA; push_cast; ring
    have hB : idxB n (4 * o') t = idxA n (4 * o') t - 2 * (o' : ℕ) := by
      unfold idxB
      rw [show (4 * o') / 2 = 2 * o' by omega]
      push_cast; ring
    have h0 : (0 : ℤ) ≤ (t : ℤ) * (o' : ℕ) := by positivity
    obtain ⟨hgA, hgB⟩ := hg
    rw [upd_apply, if_neg (by omega), upd_apply, if_neg (by omega)]
  · rfl

theorem upLevel_frame (n o d p : ℕ) (ho : o % 2 = 0) (hp : p % 2 ≠ (n - 1) % 2)
    (v : ℕ → ℤ) : upLevel n o d v p = v p :=
  foldl_point (fun w t => upStep n o t w) p
    (fun w t => upStep_frame n o t p ho hp w) (List.range d) v

theorem downLevel_frame (n o d p : ℕ) (ho : o % 4 = 0) (hp : p % 2 ≠ (n - 1) % 2)
    (v : ℕ → ℤ) : downLevel n o d v p = v p :=
  foldl_point (fun w t => downStep n o t w) p
    (fun w t => downStep_frame n o t p ho hp w) (List.range d) v

theorem upSweepAux_frame (n : ℕ) :
    ∀ (l o p : ℕ) (v : ℕ → ℤ), o % 2 = 0 → p % 2 ≠ (n - 1) % 2 →
      upSweepAux n l o v p = v p := by
  intro l
  induction l with
  | zero => intro o p v _ _; rfl
  | succ l ih =>
    intro o p v ho hp
    show upSweepAux n l (2 * o) (upLevel n o (2 ^ l) v) p = v p
    rw [ih (2 * o) p _ (by omega) hp]
    exact upLevel_frame n o (2 ^ l) p ho hp v

theorem downSweepAux_frame (n : ℕ) :
    ∀ (l s d p : ℕ) (v : ℕ → ℤ), l ≤ s → p % 2 ≠ (n - 1) % 2 →
      downSweepAux n l d (2 ^ (s + 1)) v p = v p := by
  intro l
  induction l with
  | zero => intro s d p v _ _; rfl
  | succ l ih =>
    intro s d p v hls hp
    obtain ⟨s', rfl⟩ : ∃ s', s = s' + 1 := ⟨s - 1, by omega⟩
    show downSweepAux n l (2 * d) (2 ^ (s' + 2) / 2)
        (downLevel n (2 ^ (s' + 2)) d v) p = v p
    rw [show (2 : ℕ) ^ (s' + 2) / 2 = 2 ^ (s' + 1) by rw [pow_succ]; exact Nat.mul_div_cancel _ (by norm_num)]
    rw [ih s' (2 * d) p _ (by omega) hp]
    exact downLevel_frame n (2 ^ (s' + 2)) d p
      (by rw [show (2:ℕ) ^ (s' + 2) = 4 * 2 ^ s' by ring]; omega) hp v

theorem clearLast_frame (n p : ℕ) (hp : p % 2 ≠ (n - 1) % 2) (v : ℕ → ℤ) :
    clearLast n v p = v p := by
  unfold clearLast
  split_ifs with h
  · rw [upd_apply, if_neg (by omega)]
  · rfl

end StreamCompaction
namespace StreamCompaction

/-! ### Exact characterization of the two offset-2 levels -/

theorem idxA_two (n d : ℕ) : idxA n 2 d = (n : ℤ) - 1 - 2 * d := by
  unfold idxA; push_cast; ring

theorem idxB_two (n d : ℕ) : idxB n 2 d = (n : ℤ) - 2 - 2 * d := by
  unfold idxB; rw [idxA_two]; omega

/-- The first up-sweep level (`offset = 2`, `d` threads): cell `p` of the
right parity with a live left neighbour accumulates that neighbour. -/
theorem upLevel2_char (n : ℕ) :
    ∀ (d : ℕ) (v : ℕ → ℤ) (p : ℕ),
      upLevel n 2 d v p =
        if p % 2 = (n - 1) % 2 ∧ 1 ≤ p ∧ p < n ∧ n - 1 - p < 2 * d then
          v p + v (p - 1)
        else v p := by
  intro d
  induction d with
  | zero =>
    intro v p
    rw [if_neg (by omega)]
    rfl
  | succ d ih =>
    intro v p
    rw [upLevel_succ]
    have hA := idxA_two n d
    have hB := idxB_two n d
    by_cases hg : 2 * d + 2 ≤ n
    · have hgi : 0 ≤ idxA n 2 d ∧ 0 ≤ idxB n 2 d := by constructor <;> omega
      have htA : (idxA n 2 d).toNat = n - 1 - 2 * d := by omega
      have htB : (idxB n 2 d).toNat = n - 2 - 2 * d := by omega
      unfold upStep
      rw [if_pos hgi, upd_apply, htA, htB]
      by_cases hp : p = n - 1 - 2 * d
      · rw [if_pos hp, ih v (n - 1 - 2 * d), ih v (n - 2 - 2 * d)]
        rw [if_neg (by omega), if_neg (by omega), if_pos (by omega)]
        subst hp
        rw [show n - 1 - 2 * d - 1 = n - 2 - 2 * d by omega]
      · rw [if_neg hp, ih v p]
        by_cases hc : p % 2 = (n - 1) % 2 ∧ 1 ≤ p ∧ p < n ∧ n - 1 - p < 2 * d
        · rw [if_pos hc, if_pos (by omega)]
        · rw [if_neg hc, if_neg (by omega)]
    · have hgi : ¬(0 ≤ idxA n 2 d ∧ 0 ≤ idxB n 2 d) := by omega
      unfold upStep
      rw [if_neg hgi, ih v p]
      by_cases hc : p % 2 = (n - 1) % 2 ∧ 1 ≤ p ∧ p < n ∧ n - 1 - p < 2 * d
      · rw [if_pos hc, if_pos (by omega)]
      · rw [if_neg hc, if_neg (by omega)]

/-- The last down-sweep level (`offset = 2`, `d` threads): each live pair
`(p, p-1)` with `p` of the right parity becomes `(w p + w (p-1), w p)`. -/
theorem downLevel2_char (n : ℕ) :
    ∀ (d : ℕ) (w : ℕ → ℤ) (p : ℕ),
      downLevel n 2 d w p =
        if p % 2 = (n - 1) % 2 ∧ 1 ≤ p ∧ p < n ∧ n - 1 - p < 2 * d then
          w p + w (p - 1)
        else if (p + 1) % 2 = (n - 1) % 2 ∧ p + 1 < n ∧ n - 2 - p < 2 * d then
          w (p + 1)
        else w p := by
  intro d
  induction d with
  | zero =>
    intro w p
    rw [if_neg (by omega), if_neg (by omega)]
    rfl
  | succ d ih =>
    intro w p
    rw [downLevel_succ]
    have hA := idxA_two n d
    have hB := idxB_two n d
    by_cases hg : 2 * d + 2 ≤ n
    · have hgi : 0 ≤ idxA n 2 d ∧ 0 ≤ idxB n 2 d := by constructor <;> omega
      have htA : (idxA n 2 d).toNat = n - 1 - 2 * d := by omega
      have htB : (idxB n 2 d).toNat = n - 2 - 2 * d := by omega
      unfold downStep
      rw [if_pos hgi, upd_apply, upd_apply, htA, htB]
      by_cases hpa : p = n - 1 - 2 * d
      · rw [if_pos hpa, ih w (n - 1 - 2 * d), ih w (n - 2 - 2 * d)]
        rw [if_neg (by omega), if_neg (by omega), if_neg (by omega), if_neg (by omega)]
        rw [if_pos (by omega)]
        subst hpa
        rw [show n - 1 - 2 * d - 1 = n - 2 - 2 * d by omega]
      · rw [if_neg hpa]
        by_cases hpb : p = n - 2 - 2 * d
        · rw [if_pos hpb, ih w (n - 1 - 2 * d)]
          rw [if_neg (by omega), if_neg (by omega)]
          rw [if_neg (by omega), if_pos (by omega)]
          subst hpb
          rw [show n - 2 - 2 * d + 1 = n - 1 - 2 * d by omega]
        · rw [if_neg hpb, ih w p]
          by_cases hc1 : p % 2 = (n - 1) % 2 ∧ 1 ≤ p ∧ p < n ∧ n - 1 - p < 2 * d
          · rw [if_pos hc1, if_pos (by omega)]
          · rw [if_neg hc1]
            by_cases hc2 : (p + 1) % 2 = (n - 1) % 2 ∧ p + 1 < n ∧ n - 2 - p < 2 * d
            · rw [if_pos hc2, if_neg (by omega), if_pos (by omega)]
            · rw [if_neg hc2, if_neg (by omega), if_neg (by omega)]
    · have hgi : ¬(0 ≤ idxA n 2 d ∧ 0 ≤ idxB n 2 d) := by omega
      unfold downStep
      rw [if_neg hgi, ih w p]
      by_cases hc1 : p % 2 = (n - 1) % 2 ∧ 1 ≤ p ∧ p < n ∧ n - 1 - p < 2 * d
      · rw [if_pos hc1, if_pos (by omega)]
      · rw [if_neg hc1]
        by_cases hc2 : (p + 1) % 2 = (n - 1) % 2 ∧ p + 1 < n ∧ n - 2 - p < 2 * d
        · rw [if_pos hc2, if_neg (by omega), if_pos (by omega)]
        · rw [if_neg hc2, if_neg (by omega), if_neg (by omega)]

/-- After the first up-sweep level the sub-buffer holds the pair sums. -/
theorem upLevel2_sub (n k : ℕ) (hn : 1 ≤ n) (hnk : n ≤ 2 ^ (k + 1)) (v : ℕ → ℤ) :
    subArr n (upLevel n 2 (2 ^ k) v) = pairSums n v := by
  have h2k : 1 ≤ 2 ^ k := Nat.one_le_two_pow
  have hp2 : 2 ^ (k + 1) = 2 * 2 ^ k := by ring
  funext j
  unfold subArr pairSums
  by_cases hj : j < half n
  · rw [if_pos hj, if_pos hj, upLevel2_char]
    have hrn : rho n j < n := by unfold rho half at *; omega
    have hpar : rho n j % 2 = (n - 1) % 2 := by unfold rho; omega
    by_cases h0 : rho n j = 0
    · rw [if_neg (by omega), if_pos h0, h0]
    · rw [if_pos (by omega)]
      rw [if_neg h0]
  · rw [if_neg hj, if_neg hj]

/-- Prefix sums of the pair sums are prefix sums of the original input. -/
theorem sumTo_pairSums (n : ℕ) (hn : 1 ≤ n) (v : ℕ → ℤ) :
    ∀ i, i ≤ half n → sumTo (pairSums n v) i = sumTo v (rho n i - 1) := by
  intro i
  induction i with
  | zero =>
    intro _
    rw [show rho n 0 - 1 = 0 by unfold rho; omega]
    rfl
  | succ i ih =>
    intro hi
    have hi' : i < half n := by omega
    rw [sumTo_succ, ih (by omega)]
    unfold pairSums
    rw [if_pos hi']
    by_cases h0 : rho n i = 0
    · rw [if_pos h0]
      have e1 : rho n i - 1 = 0 := by omega
      have e2 : rho n (i + 1) - 1 = 1 := by unfold rho at h0 ⊢; omega
      rw [e1, e2]
      rfl
    · rw [if_neg h0]
      have e2 : rho n (i + 1) - 1 = rho n i + 1 := by unfold rho; omega
      rw [e2]
      obtain ⟨a, ha⟩ : ∃ a, rho n i = a + 1 := ⟨rho n i - 1, by omega⟩
      rw [ha]
      simp only [Nat.add_sub_cancel]
      rw [sumTo_succ, sumTo_succ]
      ring

end StreamCompaction
namespace StreamCompaction

/-- Correctness of the right-aligned work-efficient scan kernel: with
`2^(k-1) < n ≤ 2^k` (the padded size computed by the host), the kernel leaves
the exclusive prefix sums of the input in the first `n` cells. -/
theorem scanCore_correct :
    ∀ (k n : ℕ) (v : ℕ → ℤ) (i : ℕ), n ≤ 2 ^ k → 2 ^ k < 2 * n → i < n →
      kernelEfficientScan n k v i = sumTo v i := by
  intro k
  induction k with
  | zero =>
    intro n v i h1 h2 hi
    have hpow : (2 : ℕ) ^ 0 = 1 := rfl
    obtain rfl : n = 1 := by omega
    obtain rfl : i = 0 := by omega
    show clearLast 1 v 0 = 0
    unfold clearLast
    rw [if_pos (by omega : 0 < 1), upd_apply, if_pos rfl]
  | succ k ih =>
    intro n v i h1 h2 hi
    have h2k : 1 ≤ 2 ^ k := Nat.one_le_two_pow
    have hp2 : (2 : ℕ) ^ (k + 1) = 2 * 2 ^ k := by ring
    have hn1 : 1 ≤ n := by omega
    have hn2 : 2 ≤ n := by omega
    have hm1 : 1 ≤ half n := by unfold half; omega
    have hmle : half n ≤ 2 ^ k := by unfold half; omega
    have hmgt : 2 ^ k < 2 * half n := by unfold half; omega
    set v1 := upLevel n 2 (2 ^ k) v with hv1
    set w := downSweepAux n k 1 (2 ^ (k + 1)) (clearLast n (upSweepAux n k 4 v1))
      with hw
    have hup : upSweep n (k + 1) v = upSweepAux n k 4 v1 := rfl
    have hdown : ∀ x, downSweep n (k + 1) x =
        downLevel n 2 (2 ^ k) (downSweepAux n k 1 (2 ^ (k + 1)) x) := by
      intro x
      show downSweepAux n (k + 1) 1 (2 ^ (k + 1)) x = _
      rw [downSweepAux_peel n k 1 (2 ^ (k + 1)) x]
      rw [show (2 : ℕ) ^ (k + 1) / 2 ^ k = 2 by
        rw [pow_succ, Nat.mul_comm]; exact Nat.mul_div_cancel _ (by positivity)]
      rw [one_mul]
    have hgoal : kernelEfficientScan n (k + 1) v = downLevel n 2 (2 ^ k) w := by
      unfold kernelEfficientScan
      rw [hup, hdown]
    have hsubv1 : subArr n v1 = pairSums n v := upLevel2_sub n k hn1 h1 v
    have hsubw : subArr n w = kernelEfficientScan (half n) k (pairSums n v) := by
      rw [hw]
      rw [downSweepAux_corr n hn1 k k 1 _ (le_refl k)]
      rw [clearLast_corr n hn1 _]
      rw [show (4 : ℕ) = 2 ^ (0 + 2) by norm_num]
      rw [upSweepAux_corr n hn1 k 0 v1]
      rw [hsubv1]
      rfl
    have hIH : ∀ q, q < half n → w (rho n q) = sumTo v (rho n q - 1) := by
      intro q hq
      have h5 : w (rho n q) = subArr n w q := (subArr_apply_lt n w q hq).symm
      rw [h5, hsubw, ih (half n) (pairSums n v) q hmle hmgt hq,
        sumTo_pairSums n hn1 v q (by omega)]
    have hframe : ∀ p, p % 2 ≠ (n - 1) % 2 → w p = v p := by
      intro p hp
      rw [hw]
      rw [downSweepAux_frame n k k 1 p _ (le_refl k) hp]
      rw [clearLast_frame n p hp]
      rw [upSweepAux_frame n k 4 p _ (by norm_num) hp]
      exact upLevel_frame n 2 (2 ^ k) p (by norm_num) hp v
    rw [hgoal, downLevel2_char]
    by_cases hpar : i % 2 = (n - 1) % 2
    · by_cases hi1 : 1 ≤ i
      · have hc1 : i % 2 = (n - 1) % 2 ∧ 1 ≤ i ∧ i < n ∧ n - 1 - i < 2 * 2 ^ k := by
          omega
        rw [if_pos hc1]
        obtain ⟨q, hq, hqlt⟩ : ∃ q, rho n q = i ∧ q < half n := by
          refine ⟨(i - (n - 1) % 2) / 2, ?_, ?_⟩ <;> simp only [rho, half] <;> omega
        have h6 : w i = sumTo v (i - 1) := by
          rw [← hq]
          exact hIH q hqlt
        have h7 : w (i - 1) = v (i - 1) := hframe (i - 1) (by omega)
        rw [h6, h7]
        obtain ⟨a, ha⟩ : ∃ a, i = a + 1 := ⟨i - 1, by omega⟩
        rw [ha]
        simp only [Nat.add_sub_cancel]
        rw [sumTo_succ]
      · have hi0 : i = 0 := by omega
        subst hi0
        have hc1 : ¬(0 % 2 = (n - 1) % 2 ∧ 1 ≤ 0 ∧ 0 < n ∧ n - 1 - 0 < 2 * 2 ^ k) := by
          omega
        have hc2 : ¬((0 + 1) % 2 = (n - 1) % 2 ∧ 0 + 1 < n ∧ n - 2 - 0 < 2 * 2 ^ k) := by
          omega
        rw [if_neg hc1, if_neg hc2]
        have hr0 : rho n 0 = 0 := by unfold rho; omega
        have h8 := hIH 0 (by omega)
        rw [hr0] at h8
        exact h8
    · have hc1 : ¬(i % 2 = (n - 1) % 2 ∧ 1 ≤ i ∧ i < n ∧ n - 1 - i < 2 * 2 ^ k) := by
        omega
      have hc2 : (i + 1) % 2 = (n - 1) % 2 ∧ i + 1 < n ∧ n - 2 - i < 2 * 2 ^ k := by
        omega
      rw [if_neg hc1, if_pos hc2]
      obtain ⟨q, hq, hqlt⟩ : ∃ q, rho n q = i + 1 ∧ q < half n := by
        refine ⟨(i + 1 - (n - 1) % 2) / 2, ?_, ?_⟩ <;> simp only [rho, half] <;> omega
      have h9 := hIH q hqlt
      rw [hq] at h9
      simpa using h9

end StreamCompaction
namespace StreamCompaction

/-! ### The host scan -/

theorem clog_bounds (n : ℕ) (hn : 1 ≤ n) :
    n ≤ 2 ^ ilog2ceil n ∧ 2 ^ ilog2ceil n < 2 * n := by
  unfold ilog2ceil
  refine ⟨Nat.le_pow_clog (by norm_num) n, ?_⟩
  rcases Nat.lt_or_ge n 2 with h | h
  · obtain rfl : n = 1 := by omega
    rw [Nat.clog_one_right]
    norm_num
  · have hpos := Nat.clog_pos (by norm_num : (1 : ℕ) < 2) h
    have hlt := Nat.pow_pred_clog_lt_self (by norm_num : (1 : ℕ) < 2)
      (by omega : 1 < n)
    rw [Nat.pred_eq_sub_one] at hlt
    have hsplit : (2 : ℕ) ^ Nat.clog 2 n = 2 ^ (Nat.clog 2 n - 1) * 2 := by
      rw [← pow_succ]
      congr 1
      omega
    omega

/-- The scan kernel, at the padded size the host computes, produces exclusive
prefix sums on every live cell. -/
theorem scan_correct_at (n : ℕ) (v : ℕ → ℤ) (i : ℕ) (hi : i < n) :
    kernelEfficientScan n (ilog2ceil n) v i = sumTo v i := by
  have h := clog_bounds n (by omega)
  exact scanCore_correct (ilog2ceil n) n v i h.1 h.2 hi

theorem scan_length (n : ℕ) (v : ℕ → ℤ) : (scan n v).length = n := by
  simp [scan]

theorem scan_getD (n : ℕ) (v : ℕ → ℤ) (i : ℕ) (hi : i < n) (d : ℤ) :
    (scan n v).getD i d = sumTo v i := by
  unfold scan
  rw [List.getD_eq_getElem _ _ (by simpa using hi)]
  simp only [List.getElem_map, List.getElem_range]
  exact scan_correct_at n v i hi

/-! ### The mask and the surviving subsequence -/

theorem mask_sum_len (n : ℕ) (idata : ℕ → ℤ) :
    ∀ q, sumTo (kernMapToBoolean n idata) q = ((nonzeroSeq idata q).length : ℤ) := by
  intro q
  induction q with
  | zero => rfl
  | succ q ih =>
    rw [sumTo_succ, ih]
    show _ = (((nonzeroSeq idata q) ++ (if idata q = 0 then [] else [idata q])).length : ℤ)
    rw [List.length_append]
    unfold kernMapToBoolean
    by_cases h : idata q = 0
    · simp [h]
    · simp [h]

theorem nonzeroSeq_len_le (idata : ℕ → ℤ) : ∀ q, (nonzeroSeq idata q).length ≤ q := by
  intro q
  induction q with
  | zero => simp [nonzeroSeq]
  | succ q ih =>
    show ((nonzeroSeq idata q) ++ (if idata q = 0 then [] else [idata q])).length ≤ q + 1
    rw [List.length_append]
    split_ifs <;> simp <;> omega

theorem nonzeroSeq_len_mono (idata : ℕ → ℤ) (a : ℕ) :
    ∀ b, a ≤ b → (nonzeroSeq idata a).length ≤ (nonzeroSeq idata b).length := by
  intro b
  induction b with
  | zero =>
    intro h
    have ha : a = 0 := by omega
    subst ha
    exact le_refl _
  | succ b ih =>
    intro h
    rcases Nat.lt_or_ge a (b + 1) with h' | h'
    · have h2 := ih (by omega)
      show _ ≤ ((nonzeroSeq idata b) ++ _).length
      rw [List.length_append]
      omega
    · have : a = b + 1 := by omega
      subst this
      exact le_refl _

theorem nonzeroSeq_all (idata : ℕ → ℤ) :
    ∀ q, (∀ i, i < q → idata i ≠ 0) → nonzeroSeq idata q = (List.range q).map idata := by
  intro q
  induction q with
  | zero => intro _; rfl
  | succ q ih =>
    intro h
    show (nonzeroSeq idata q) ++ (if idata q = 0 then [] else [idata q]) = _
    rw [List.range_succ, List.map_append, ih (fun i hi => h i (by omega)),
      if_neg (h q (by omega))]
    rfl

theorem nonzeroSeq_zero (idata : ℕ → ℤ) :
    ∀ q, (∀ i, i < q → idata i = 0) → nonzeroSeq idata q = [] := by
  intro q
  induction q with
  | zero => intro _; rfl
  | succ q ih =>
    intro h
    show (nonzeroSeq idata q) ++ (if idata q = 0 then [] else [idata q]) = []
    rw [ih (fun i hi => h i (by omega)), if_pos (h q (by omega))]
    rfl

theorem nonzeroSeq_getD_at (idata : ℕ → ℤ) (i : ℕ) (h : idata i ≠ 0) :
    ∀ q, i < q →
      (nonzeroSeq idata q).getD (nonzeroSeq idata i).length 0 = idata i := by
  intro q
  induction q with
  | zero => intro hq; omega
  | succ q ih =>
    intro hq
    show ((nonzeroSeq idata q) ++ (if idata q = 0 then [] else [idata q])).getD _ _ = _
    rcases Nat.lt_or_ge i q with h' | h'
    · have hlen : (nonzeroSeq idata i).length < (nonzeroSeq idata q).length := by
        have h1 : (nonzeroSeq idata (i + 1)).length ≤ (nonzeroSeq idata q).length :=
          nonzeroSeq_len_mono idata (i + 1) q h'
      -- length of (i+1)-step is length of i-step plus one
        have h2 : (nonzeroSeq idata (i + 1)).length = (nonzeroSeq idata i).length + 1 := by
          show ((nonzeroSeq idata i) ++ (if idata i = 0 then [] else [idata i])).length = _
          rw [if_neg h, List.length_append]
          rfl
        omega
      rw [List.getD_append _ _ _ _ hlen]
      exact ih h'
    · have : i = q := by omega
      subst this
      rw [if_neg h, List.getD_append_right _ _ _ _ (le_refl _), Nat.sub_self]
      rfl

/-! ### The scatter kernel -/

/-- Running invariant of the scatter: after the first `q` threads, the first
`(nonzeroSeq idata q).length` output cells hold the surviving subsequence of
`input[0..q)` and every other cell still holds its initial content. -/
theorem kernScatter_inv (n : ℕ) (odata idata bools indices : ℕ → ℤ)
    (hb : ∀ i, bools i = kernMapToBoolean n idata i)
    (hs : ∀ i, i < n → indices i = ((nonzeroSeq idata i).length : ℤ)) :
    ∀ q, q ≤ n → ∀ p,
      ((List.range q).foldl
          (fun w i => if bools i = 1 then upd w (indices i).toNat (idata i) else w)
          odata) p =
        if p < (nonzeroSeq idata q).length then (nonzeroSeq idata q).getD p 0
        else odata p := by
  intro q
  induction q with
  | zero =>
    intro _ p
    rw [if_neg (by simp [nonzeroSeq])]
    rfl
  | succ q ih =>
    intro hq p
    rw [List.range_succ, List.foldl_append, List.foldl_cons, List.foldl_nil]
    have hseq : nonzeroSeq idata (q + 1) =
        (nonzeroSeq idata q) ++ (if idata q = 0 then [] else [idata q]) := rfl
    by_cases h : idata q = 0
    · have hb0 : ¬(bools q = 1) := by
        rw [hb q]; unfold kernMapToBoolean; simp [h]
      rw [if_neg hb0, ih (by omega) p]
      rw [show nonzeroSeq idata (q + 1) = nonzeroSeq idata q by
        rw [hseq, if_pos h]; exact List.append_nil _]
    · have hb1 : bools q = 1 := by
        rw [hb q]; unfold kernMapToBoolean; simp [h]
      rw [if_pos hb1, upd_apply]
      have htn : (indices q).toNat = (nonzeroSeq idata q).length := by
        rw [hs q (by omega)]
        exact Int.toNat_natCast _
      rw [htn]
      have hlen1 : (nonzeroSeq idata (q + 1)).length = (nonzeroSeq idata q).length + 1 := by
        rw [hseq, if_neg h, List.length_append]
        rfl
      by_cases hp : p = (nonzeroSeq idata q).length
      · rw [if_pos hp, if_pos (by omega)]
        rw [hseq, if_neg h, hp, List.getD_append_right _ _ _ _ (le_refl _),
          Nat.sub_self]
        rfl
      · rw [if_neg hp, ih (by omega) p]
        by_cases hlt : p < (nonzeroSeq idata q).length
        · rw [if_pos hlt, if_pos (by omega), hseq, if_neg h,
            List.getD_append _ _ _ _ hlt]
        · rw [if_neg hlt, if_neg (by omega)]

/-- The device output buffer after `compact`'s three kernels: the first
`count` cells hold the surviving subsequence, all others their initial
garbage. -/
theorem compactDev_eq (n : ℕ) (idata dOdata : ℕ → ℤ) (p : ℕ) :
    compactDev n idata dOdata p =
      if p < (nonzeroSeq idata n).length then (nonzeroSeq idata n).getD p 0
      else dOdata p := by
  unfold compactDev kernScatter
  exact kernScatter_inv n dOdata idata _ _ (fun i => rfl)
    (fun i hi => by
      rw [scan_correct_at n _ i hi, mask_sum_len n idata i])
    n (le_refl n) p

/-! ### The host compact -/

theorem compactCount_eq (n : ℕ) (hn : 1 ≤ n) (idata : ℕ → ℤ) :
    compactCount n idata = ((nonzeroSeq idata n).length : ℤ) := by
  obtain ⟨a, rfl⟩ : ∃ a, n = a + 1 := ⟨n - 1, by omega⟩
  unfold compactCount
  simp only [Nat.add_sub_cancel]
  rw [scan_correct_at (a + 1) _ a (by omega)]
  have h1 := mask_sum_len (a + 1) idata (a + 1)
  rw [sumTo_succ] at h1
  omega

theorem copyBack_take (dst : List ℤ) (src : ℕ → ℤ) (len : ℕ) :
    (copyBack dst src len).take len = (List.range len).map src := by
  unfold copyBack
  exact List.take_left' (by simp)

theorem copyBack_getD_ge (dst : List ℤ) (src : ℕ → ℤ) (len p : ℕ) (d : ℤ)
    (hp : len ≤ p) :
    (copyBack dst src len).getD p d = dst.getD p d := by
  unfold copyBack
  rw [List.getD_append_right _ _ _ _ (by simpa using hp)]
  simp only [List.length_map, List.length_range]
  rw [List.getD_eq_getD_get?, List.getD_eq_getD_get?, List.get?_drop]
  rw [show len + (p - len) = p by omega]

theorem compact_snd (n : ℕ) (odata : List ℤ) (idata dOdata : ℕ → ℤ) :
    (compact n odata idata dOdata).2 = compactCount n idata := rfl

theorem compact_fst (n : ℕ) (odata : List ℤ) (idata dOdata : ℕ → ℤ) :
    (compact n odata idata dOdata).1 =
      copyBack odata (compactDev n idata dOdata) (compactCount n idata).toNat := rfl

/-- The first `count` entries of the caller's buffer after `compact` are the
surviving subsequence of the input. -/
theorem compact_take (n : ℕ) (hn : 1 ≤ n) (odata : List ℤ) (idata dOdata : ℕ → ℤ) :
    (compact n odata idata dOdata).1.take ((compact n odata idata dOdata).2).toNat =
      nonzeroSeq idata n := by
  rw [compact_fst, compact_snd, compactCount_eq n hn idata, Int.toNat_natCast,
    copyBack_take]
  have hlen : ((List.range (nonzeroSeq idata n).length).map
      (compactDev n idata dOdata)).length = (nonzeroSeq idata n).length := by
    simp
  apply List.ext_getElem (by simpa using hlen)
  intro i h1 h2
  simp only [List.getElem_map, List.getElem_range]
  rw [compactDev_eq n idata dOdata i, if_pos h2]
  exact List.getD_eq_getElem _ _ h2

end StreamCompaction
namespace StreamCompaction

/-! ### Remaining helpers -/

theorem ilog2ceil_val (n k : ℕ) (h1 : n ≤ 2 ^ k) (h2 : 2 ^ k < 2 * n) :
    ilog2ceil n = k := by
  unfold ilog2ceil
  have hle : Nat.clog 2 n ≤ k := (Nat.le_pow_iff_clog_le (by norm_num)).mp h1
  have hck := Nat.le_pow_clog (by norm_num : 1 < 2) n
  by_contra hne
  have hclt : Nat.clog 2 n < k := by omega
  have hdouble : 2 ^ Nat.clog 2 n * 2 ≤ 2 ^ k := by
    calc 2 ^ Nat.clog 2 n * 2 = 2 ^ (Nat.clog 2 n + 1) := by ring
    _ ≤ 2 ^ k := Nat.pow_le_pow_right (by norm_num) (by omega)
  omega

theorem mask_eq_one_iff (n : ℕ) (idata : ℕ → ℤ) (i : ℕ) :
    kernMapToBoolean n idata i = 1 ↔ idata i ≠ 0 := by
  unfold kernMapToBoolean
  by_cases h : idata i = 0 <;> simp [h]

theorem nonzeroSeq_len_succ_ne (idata : ℕ → ℤ) (i : ℕ) (h : idata i ≠ 0) :
    (nonzeroSeq idata (i + 1)).length = (nonzeroSeq idata i).length + 1 := by
  show ((nonzeroSeq idata i) ++ (if idata i = 0 then [] else [idata i])).length = _
  rw [if_neg h, List.length_append]
  rfl

theorem scanned_lt (n : ℕ) (idata : ℕ → ℤ) (i j : ℕ) (hij : i < j) (hjn : j < n)
    (hnz : idata i ≠ 0) :
    kernelEfficientScan n (ilog2ceil n) (kernMapToBoolean n idata) i <
      kernelEfficientScan n (ilog2ceil n) (kernMapToBoolean n idata) j := by
  rw [scan_correct_at n _ i (by omega), scan_correct_at n _ j hjn,
    mask_sum_len n idata i, mask_sum_len n idata j]
  have h1 := nonzeroSeq_len_succ_ne idata i hnz
  have h2 := nonzeroSeq_len_mono idata (i + 1) j hij
  omega

theorem scatter_writes (n : ℕ) (idata dOdata : ℕ → ℤ) (i : ℕ) (hi : i < n)
    (hnz : idata i ≠ 0) :
    compactDev n idata dOdata
        ((kernelEfficientScan n (ilog2ceil n) (kernMapToBoolean n idata) i).toNat) =
      idata i := by
  have hSi : kernelEfficientScan n (ilog2ceil n) (kernMapToBoolean n idata) i =
      ((nonzeroSeq idata i).length : ℤ) := by
    rw [scan_correct_at n _ i hi, mask_sum_len n idata i]
  have h1 := nonzeroSeq_len_succ_ne idata i hnz
  have h2 := nonzeroSeq_len_mono idata (i + 1) n hi
  rw [hSi, Int.toNat_natCast, compactDev_eq, if_pos (by omega)]
  exact nonzeroSeq_getD_at idata i hnz n hi

/-! ### The claims -/

/-- C1: for every n ≥ 0 and every integer input sequence, `scan(n, input)`
returns a sequence of length n whose element 0 equals 0 and whose element i
equals the sum of `input[0..i)` for every i ∈ [0, n). -/
theorem scan_exclusive_prefix_sum (n : ℕ) (idata : ℕ → ℤ) :
    (scan n idata).length = n ∧
    (1 ≤ n → (scan n idata).getD 0 0 = 0) ∧
    (∀ i, i < n → (scan n idata).getD i 0 = sumTo idata i) :=
  ⟨scan_length n idata,
   fun hn => scan_getD n idata 0 (by omega) 0,
   fun i hi => scan_getD n idata i hi 0⟩

theorem scan_exclusive_prefix_sum_witness :
    (scan 3 (fun j => ([5, -2, 7] : List ℤ).getD j 0)).getD 2 0 =
      sumTo (fun j => ([5, -2, 7] : List ℤ).getD j 0) 2 :=
  (scan_exclusive_prefix_sum 3 (fun j => ([5, -2, 7] : List ℤ).getD j 0)).2.2 2
    (by norm_num)

/-- C2: for n ≥ 1, `compact` returns the number of non-zero input elements as
its count, the first count entries of the output are the non-zero input
elements in their original relative order, and the count equals
`mask[n-1] + scannedMask[n-1]`. -/
theorem compact_spec (n : ℕ) (odata : List ℤ) (idata dOdata : ℕ → ℤ)
    (hn : 1 ≤ n) :
    (compact n odata idata dOdata).2 = ((nonzeroSeq idata n).length : ℤ) ∧
    (compact n odata idata dOdata).1.take ((compact n odata idata dOdata).2).toNat =
      nonzeroSeq idata n ∧
    (compact n odata idata dOdata).2 =
      kernMapToBoolean n idata (n - 1) +
        kernelEfficientScan n (ilog2ceil n) (kernMapToBoolean n idata) (n - 1) := by
  refine ⟨?_, compact_take n hn odata idata dOdata, rfl⟩
  rw [compact_snd, compactCount_eq n hn]

theorem compact_spec_witness :
    (compact 2 ([9, 9] : List ℤ) (fun j => ([0, 5] : List ℤ).getD j 0)
        (fun _ => 37)).2 =
      ((nonzeroSeq (fun j => ([0, 5] : List ℤ).getD j 0) 2).length : ℤ) :=
  (compact_spec 2 [9, 9] (fun j => ([0, 5] : List ℤ).getD j 0) (fun _ => 37)
    (by norm_num)).1

/-- C3: for the concrete input [1,0,0,3,0,1] with n = 6, `scan` returns
[0,1,1,1,4,4], and `compact` returns count 3 with first three output entries
[1,3,1], whatever the initial device garbage and caller buffer hold. -/
theorem scenarioA (odata : List ℤ) (dOdata : ℕ → ℤ) :
    scan 6 (fun j => ([1, 0, 0, 3, 0, 1] : List ℤ).getD j 0) = [0, 1, 1, 1, 4, 4] ∧
    (compact 6 odata (fun j => ([1, 0, 0, 3, 0, 1] : List ℤ).getD j 0) dOdata).2 = 3 ∧
    (compact 6 odata (fun j => ([1, 0, 0, 3, 0, 1] : List ℤ).getD j 0) dOdata).1.take 3 =
      [1, 3, 1] := by
  have hk : ilog2ceil 6 = 3 := ilog2ceil_val 6 3 (by norm_num) (by norm_num)
  have hcnt : compactCount 6 (fun j => ([1, 0, 0, 3, 0, 1] : List ℤ).getD j 0) = 3 := by
    rw [compactCount_eq 6 (by norm_num)]
    decide
  refine ⟨?_, ?_, ?_⟩
  · unfold scan
    rw [hk]
    decide
  · rw [compact_snd, hcnt]
  · rw [compact_fst, hcnt,
      show ((3 : ℤ)).toNat = 3 from rfl,
      copyBack_take]
    have hl : nonzeroSeq (fun j => ([1, 0, 0, 3, 0, 1] : List ℤ).getD j 0) 6 =
        [1, 3, 1] := by decide
    show [compactDev 6 _ dOdata 0, compactDev 6 _ dOdata 1, compactDev 6 _ dOdata 2] = _
    simp only [compactDev_eq, hl]
    norm_num

/-- C4: every index pair `a = n-1-t*offset`, `b = a-offset/2` that passes the
guard `a ≥ 0 && b ≥ 0` lies inside the length-n working buffer, for every
n ≥ 1 (power-of-two or not), every level offset and every thread id. -/
theorem sweep_indices_in_range (n offset t : ℕ) (hn : 1 ≤ n)
    (ha : 0 ≤ idxA n offset t) (hb : 0 ≤ idxB n offset t) :
    (idxA n offset t).toNat < n ∧ (idxB n offset t).toNat < n := by
  have h1 := idxA_le n offset t
  have h2 := idxB_le n offset t
  omega

theorem sweep_indices_in_range_witness :
    (idxA 5 2 1).toNat < 5 ∧ (idxB 5 2 1).toNat < 5 :=
  sweep_indices_in_range 5 2 1 (by norm_num) (by decide) (by decide)

/-- C5: scatter destinations are pairwise disjoint — distinct indices with
mask 1 get distinct scanned-mask values — and for each i with mask 1 the
scatter leaves `input[i]` in output cell `scannedMask[i]`. -/
theorem scatter_disjoint (n : ℕ) (idata dOdata : ℕ → ℤ) (i j : ℕ)
    (hi : i < n) (hj : j < n) (hij : i ≠ j)
    (hbi : kernMapToBoolean n idata i = 1)
    (hbj : kernMapToBoolean n idata j = 1) :
    kernelEfficientScan n (ilog2ceil n) (kernMapToBoolean n idata) i ≠
      kernelEfficientScan n (ilog2ceil n) (kernMapToBoolean n idata) j ∧
    compactDev n idata dOdata
        ((kernelEfficientScan n (ilog2ceil n) (kernMapToBoolean n idata) i).toNat) =
      idata i := by
  have hnzi : idata i ≠ 0 := (mask_eq_one_iff n idata i).mp hbi
  have hnzj : idata j ≠ 0 := (mask_eq_one_iff n idata j).mp hbj
  constructor
  · rcases Nat.lt_or_ge i j with h | h
    · exact ne_of_lt (scanned_lt n idata i j h hj hnzi)
    · exact (ne_of_lt (scanned_lt n idata j i (by omega) hi hnzj)).symm
  · exact scatter_writes n idata dOdata i hi hnzi

theorem scatter_disjoint_witness :
    kernelEfficientScan 3 (ilog2ceil 3)
        (kernMapToBoolean 3 (fun j => ([1, 0, 2] : List ℤ).getD j 0)) 0 ≠
      kernelEfficientScan 3 (ilog2ceil 3)
        (kernMapToBoolean 3 (fun j => ([1, 0, 2] : List ℤ).getD j 0)) 2 ∧
    compactDev 3 (fun j => ([1, 0, 2] : List ℤ).getD j 0) (fun _ => 37)
        ((kernelEfficientScan 3 (ilog2ceil 3)
          (kernMapToBoolean 3 (fun j => ([1, 0, 2] : List ℤ).getD j 0)) 0).toNat) =
      (fun j => ([1, 0, 2] : List ℤ).getD j 0) 0 :=
  scatter_disjoint 3 (fun j => ([1, 0, 2] : List ℤ).getD j 0) (fun _ => 37) 0 2
    (by norm_num) (by norm_num) (by norm_num) (by decide) (by decide)

/-- C6: if the input contains no zeros, `compact` returns the input sequence
unchanged together with count = n. -/
theorem compact_nonzero_id (n : ℕ) (odata : List ℤ) (idata dOdata : ℕ → ℤ)
    (hn : 1 ≤ n) (h : ∀ i, i < n → idata i ≠ 0) :
    (compact n odata idata dOdata).2 = (n : ℤ) ∧
    (compact n odata idata dOdata).1.take n = (List.range n).map idata := by
  have hseq := nonzeroSeq_all idata n h
  have hlen : (nonzeroSeq idata n).length = n := by rw [hseq]; simp
  constructor
  · rw [compact_snd, compactCount_eq n hn, hlen]
  · have ht := compact_take n hn odata idata dOdata
    rw [compact_snd, compactCount_eq n hn, Int.toNat_natCast, hlen] at ht
    rw [ht, hseq]

theorem compact_nonzero_id_witness :
    (compact 2 ([9, 9] : List ℤ) (fun j => ([4, 7] : List ℤ).getD j 0)
        (fun _ => 37)).2 = (2 : ℤ) ∧
    (compact 2 ([9, 9] : List ℤ) (fun j => ([4, 7] : List ℤ).getD j 0)
        (fun _ => 37)).1.take 2 =
      (List.range 2).map (fun j => ([4, 7] : List ℤ).getD j 0) :=
  compact_nonzero_id 2 [9, 9] (fun j => ([4, 7] : List ℤ).getD j 0) (fun _ => 37)
    (by norm_num) (by decide)

/-- C7: on an all-zero input, `compact` returns count 0. -/
theorem compact_all_zero (n : ℕ) (odata : List ℤ) (idata dOdata : ℕ → ℤ)
    (hn : 1 ≤ n) (h : ∀ i, i < n → idata i = 0) :
    (compact n odata idata dOdata).2 = 0 := by
  rw [compact_snd, compactCount_eq n hn, nonzeroSeq_zero idata n h]
  rfl

theorem compact_all_zero_witness :
    (compact 3 ([9, 9, 9] : List ℤ) (fun _ => 0) (fun _ => 37)).2 = 0 :=
  compact_all_zero 3 [9, 9, 9] (fun _ => 0) (fun _ => 37) (by norm_num)
    (fun _ _ => rfl)

/-- C8: the count returned by `compact` is never negative and never exceeds
n. -/
theorem compact_count_in_range (n : ℕ) (odata : List ℤ) (idata dOdata : ℕ → ℤ)
    (hn : 1 ≤ n) :
    0 ≤ (compact n odata idata dOdata).2 ∧
      (compact n odata idata dOdata).2 ≤ (n : ℤ) := by
  rw [compact_snd, compactCount_eq n hn]
  have := nonzeroSeq_len_le idata n
  omega

theorem compact_count_in_range_witness :
    0 ≤ (compact 4 ([9, 9, 9, 9] : List ℤ)
        (fun j => ([0, 8, 0, 6] : List ℤ).getD j 0) (fun _ => 37)).2 ∧
      (compact 4 ([9, 9, 9, 9] : List ℤ)
        (fun j => ([0, 8, 0, 6] : List ℤ).getD j 0) (fun _ => 37)).2 ≤ (4 : ℤ) :=
  compact_count_in_range 4 [9, 9, 9, 9]
    (fun j => ([0, 8, 0, 6] : List ℤ).getD j 0) (fun _ => 37) (by norm_num)

/-- C9: the fused kernel produces the same mask buffer, the same scanned-mask
buffer and the same scattered output buffer as the composition
`kernMapToBoolean` → `kernelEfficientScan` → `kernScatter` that the host
`compact` invokes. -/
theorem fused_kernel_refines_composition (n k : ℕ) (odata idata : ℕ → ℤ) :
    kernelEfficientCompact n k odata idata =
      (kernScatter n odata idata (kernMapToBoolean n idata)
          (kernelEfficientScan n k (kernMapToBoolean n idata)),
        kernelEfficientScan n k (kernMapToBoolean n idata),
        kernMapToBoolean n idata) := by
  have hb : (fun j => if idata j = 0 then (0 : ℤ) else 1) = kernMapToBoolean n idata := by
    funext j
    unfold kernMapToBoolean
    by_cases h : idata j = 0 <;> simp [h]
  unfold kernelEfficientCompact kernScatter kernelEfficientScan
  rw [hb]

/-- C10: `compact` writes only the first count entries of the caller's
buffer; every entry from position count on retains the content it held
before the call. -/
theorem compact_frame_beyond_count (n : ℕ) (odata : List ℤ)
    (idata dOdata : ℕ → ℤ) (hn : 1 ≤ n) (p : ℕ) (d : ℤ)
    (hp : ((compact n odata idata dOdata).2).toNat ≤ p) :
    (compact n odata idata dOdata).1.getD p d = odata.getD p d := by
  rw [compact_fst]
  exact copyBack_getD_ge odata _ _ p d hp

theorem compact_frame_beyond_count_witness :
    (compact 3 ([7, 8, 9] : List ℤ) (fun j => ([5, 0, 0] : List ℤ).getD j 0)
        (fun _ => 37)).1.getD 2 0 = ([7, 8, 9] : List ℤ).getD 2 0 :=
  compact_frame_beyond_count 3 [7, 8, 9]
    (fun j => ([5, 0, 0] : List ℤ).getD j 0) (fun _ => 37) (by norm_num) 2 0
    (by rw [compact_snd, compactCount_eq 3 (by norm_num)]; decide)

end StreamCompaction
